import Mathlib

/-!
# Verification of the tokenizer (`src/tokenizer.rs`)

A shallow embedding of `tokenize` from `src/tokenizer.rs`.  Lines are
modelled as `List Char` (Rust iterates `line.chars()`), token texts as
`List Char`, and the three phases of the Rust function are modelled
separately:

* Phase A (character split): the per-character loop body becomes
  `tokenizeChar`, a step function on the state
  `(tokens, token, is_string)`; `tokenizeLine` folds it over a line and
  performs the final flush.
* Phase B (comment removal): `removeComments` truncates a line's token
  list at the first occurrence of two consecutive `"/"` tokens,
  mirroring the `truncate(i); break` loop.
* Phase C (flattening): `flattenLine` / `flattenFrom` mirror the nested
  `enumerate` loops that tag each token with its line index and its
  position within the line.

`is_whitespace` embeds Rust's `char::is_whitespace` — the Unicode
White_Space property — character for character.
-/

/-- Rust's `char::is_whitespace`: true exactly on the code points with
the Unicode White_Space property (U+0009–U+000D, U+0020, U+0085,
U+00A0, U+1680, U+2000–U+200A, U+2028, U+2029, U+202F, U+205F,
U+3000). -/
def is_whitespace (c : Char) : Bool :=
  decide ((0x9 ≤ c.toNat ∧ c.toNat ≤ 0xD) ∨ c.toNat = 0x20 ∨ c.toNat = 0x85 ∨
    c.toNat = 0xA0 ∨ c.toNat = 0x1680 ∨
    (0x2000 ≤ c.toNat ∧ c.toNat ≤ 0x200A) ∨ c.toNat = 0x2028 ∨
    c.toNat = 0x2029 ∨ c.toNat = 0x202F ∨ c.toNat = 0x205F ∨ c.toNat = 0x3000)

/-- The `Token` struct of `src/tokenizer.rs`: the token text, its
zero-based line index, and its zero-based position within that line. -/
structure Token where
  token : List Char
  line : Nat
  token_number : Nat
deriving DecidableEq, Repr

/-- The fixed separator set `special_chars` of `src/tokenizer.rs`. -/
def special_chars : List Char :=
  ['(', ')', '{', '}', '[', ']', '<', '>', '!', '|', '&',
   ',', '.', ':', ';', '+', '*', '/', '-', '=', '^']

/-- One iteration of the per-character loop of Phase A.  The state is
`(tokens, token, is_string)`: the tokens emitted so far on this line,
the in-progress accumulator, and the inside-string-literal flag. -/
def tokenizeChar (st : List (List Char) × List Char × Bool) (ch : Char) :
    List (List Char) × List Char × Bool :=
  match st with
  | (tokens, token, is_string) =>
    if ch = '"' then
      (tokens, token, !is_string)
    else if !is_string then
      if is_whitespace ch then
        ((if token = [] then tokens else tokens ++ [token]), [], is_string)
      else if ch ∈ special_chars then
        ((if token = [] then tokens else tokens ++ [token]) ++ [[ch]], [], is_string)
      else
        (tokens, token ++ [ch], is_string)
    else
      (tokens, token ++ [ch], is_string)

/-- Phase A for one line: fold the character loop over the line starting
from the empty state, then flush a non-empty final accumulator. -/
def tokenizeLine (line : List Char) : List (List Char) :=
  match line.foldl tokenizeChar ([], [], false) with
  | (tokens, token, _) => if token = [] then tokens else tokens ++ [token]

/-- Phase B: scan a line's token list left to right and truncate at the
first pair of consecutive `"/"` tokens (`line.truncate(i); break` in the
source); lists of length at most 1 are returned unchanged. -/
def removeComments : List (List Char) → List (List Char)
  | [] => []
  | [t] => [t]
  | t :: u :: rest =>
    if t = ['/'] ∧ u = ['/'] then [] else t :: removeComments (u :: rest)

/-- Inner `enumerate` loop of Phase C: tag each token of one line with
the line index `ln` and its position, counting from `tn`. -/
def flattenLine (ln : Nat) : Nat → List (List Char) → List Token
  | _, [] => []
  | tn, t :: rest => ⟨t, ln, tn⟩ :: flattenLine ln (tn + 1) rest

/-- Outer `enumerate` loop of Phase C: flatten the per-line token lists,
numbering lines from `n`. -/
def flattenFrom : Nat → List (List (List Char)) → List Token
  | _, [] => []
  | n, l :: rest => flattenLine n 0 l ++ flattenFrom (n + 1) rest

/-- The whole `tokenize` function of `src/tokenizer.rs`: Phase A on each
line, then comment removal on each line, then flattening. -/
def tokenize (lines : List (List Char)) : List Token :=
  flattenFrom 0 (lines.map fun l => removeComments (tokenizeLine l))

/-- `pairAt l i` states that positions `i` and `i+1` of `l` both hold
the single-character token `"/"` — the comment trigger of Phase B. -/
@[reducible] def pairAt (l : List (List Char)) (i : Nat) : Prop :=
  l.get? i = some ['/'] ∧ l.get? (i + 1) = some ['/']

/-- Number of tokens a final flush of the accumulator would add: 1 if
the accumulator is non-empty, 0 otherwise. -/
def pending (token : List Char) : Nat := if token = [] then 0 else 1

/-- `hasSegment content t`: the characters of `content` occur in `t`
contiguously and in order — `t` is `u ++ content ++ v`. -/
def hasSegment (content t : List Char) : Prop :=
  ∃ u v, t = u ++ (content ++ v)

/-! ## Lemmas about Phase C (flattening) -/

theorem flattenLine_get? (ln : Nat) (l : List (List Char)) : ∀ (tn i : Nat),
    (flattenLine ln tn l).get? i = (l.get? i).map (fun t => ⟨t, ln, tn + i⟩) := by
  induction l with
  | nil => intro tn i; cases i <;> simp [flattenLine]
  | cons t rest ih =>
    intro tn i
    cases i with
    | zero => simp [flattenLine]
    | succ j =>
      simp only [flattenLine, List.get?_cons_succ]
      rw [ih (tn + 1) j]
      have h : tn + 1 + j = tn + (j + 1) := by omega
      rw [h]

theorem flattenLine_mem (ln : Nat) (l : List (List Char)) : ∀ (tn : Nat) (T : Token),
    T ∈ flattenLine ln tn l → T.line = ln ∧ T.token ∈ l := by
  induction l with
  | nil => intro tn T h; simp [flattenLine] at h
  | cons t rest ih =>
    intro tn T h
    simp only [flattenLine, List.mem_cons] at h
    rcases h with h | h
    · subst h; simp
    · rcases ih (tn + 1) T h with ⟨h1, h2⟩
      exact ⟨h1, List.mem_cons_of_mem _ h2⟩

theorem flattenLine_filter_self (ln : Nat) (l : List (List Char)) : ∀ tn : Nat,
    (flattenLine ln tn l).filter (fun T => T.line == ln) = flattenLine ln tn l := by
  induction l with
  | nil => intro tn; simp [flattenLine]
  | cons t rest ih => intro tn; simp [flattenLine, List.filter, ih (tn + 1)]

theorem flattenLine_filter_ne (ln L : Nat) (hL : L ≠ ln) (l : List (List Char)) :
    ∀ tn : Nat, (flattenLine ln tn l).filter (fun T => T.line == L) = [] := by
  induction l with
  | nil => intro tn; simp [flattenLine]
  | cons t rest ih =>
    intro tn
    have hb : (ln == L) = false := beq_eq_false_iff_ne.mpr (Ne.symm hL)
    simp [flattenLine, List.filter, hb, ih (tn + 1)]

theorem flattenLine_length (ln : Nat) (l : List (List Char)) :
    ∀ tn : Nat, (flattenLine ln tn l).length = l.length := by
  induction l with
  | nil => intro tn; simp [flattenLine]
  | cons t rest ih => intro tn; simp [flattenLine, ih (tn + 1)]

theorem flattenFrom_line_ge : ∀ (tls : List (List (List Char))) (n : Nat) (T : Token),
    T ∈ flattenFrom n tls → n ≤ T.line := by
  intro tls
  induction tls with
  | nil => intro n T h; simp [flattenFrom] at h
  | cons l rest ih =>
    intro n T h
    simp only [flattenFrom, List.mem_append] at h
    rcases h with h | h
    · exact le_of_eq ((flattenLine_mem n l 0 T h).1).symm
    · exact le_trans (Nat.le_succ n) (ih (n + 1) T h)

theorem flattenLine_pairwise (ln : Nat) (l : List (List Char)) : ∀ tn : Nat,
    (flattenLine ln tn l).Pairwise (fun a b => a.line ≤ b.line) := by
  induction l with
  | nil => intro tn; simp [flattenLine]
  | cons t rest ih =>
    intro tn
    refine List.Pairwise.cons ?_ (ih (tn + 1))
    intro b hb
    have hline := (flattenLine_mem ln rest (tn + 1) b hb).1
    rw [hline]

theorem flattenFrom_pairwise : ∀ (tls : List (List (List Char))) (n : Nat),
    (flattenFrom n tls).Pairwise (fun a b => a.line ≤ b.line) := by
  intro tls
  induction tls with
  | nil => intro n; simp [flattenFrom]
  | cons l rest ih =>
    intro n
    simp only [flattenFrom]
    rw [List.pairwise_append]
    refine ⟨flattenLine_pairwise n l 0, ih (n + 1), ?_⟩
    · intro a ha b hb
      rw [(flattenLine_mem n l 0 a ha).1]
      exact le_trans (Nat.le_succ n) (flattenFrom_line_ge rest (n + 1) b hb)

theorem flattenFrom_filter_lt : ∀ (tls : List (List (List Char))) (n L : Nat), L < n →
    (flattenFrom n tls).filter (fun T => T.line == L) = [] := by
  intro tls
  induction tls with
  | nil => intro n L _; simp [flattenFrom]
  | cons l rest ih =>
    intro n L hL
    simp only [flattenFrom, List.filter_append]
    rw [flattenLine_filter_ne n L (by omega) l 0, ih (n + 1) L (by omega)]
    simp

theorem flattenFrom_filter : ∀ (tls : List (List (List Char))) (n k : Nat),
    (flattenFrom n tls).filter (fun T => T.line == n + k) =
      (tls.get? k).elim [] (fun l => flattenLine (n + k) 0 l) := by
  intro tls
  induction tls with
  | nil => intro n k; cases k <;> simp [flattenFrom]
  | cons l rest ih =>
    intro n k
    simp only [flattenFrom, List.filter_append]
    cases k with
    | zero =>
      simp only [Nat.add_zero]
      rw [flattenLine_filter_self n l 0, flattenFrom_filter_lt rest (n + 1) n (by omega)]
      simp
    | succ j =>
      rw [flattenLine_filter_ne n (n + (j + 1)) (by omega) l 0]
      have h : n + (j + 1) = (n + 1) + j := by omega
      rw [h, ih (n + 1) j]
      simp

theorem flattenFrom_mem : ∀ (tls : List (List (List Char))) (n : Nat) (T : Token),
    T ∈ flattenFrom n tls → ∃ l ∈ tls, T.token ∈ l := by
  intro tls
  induction tls with
  | nil => intro n T h; simp [flattenFrom] at h
  | cons l rest ih =>
    intro n T h
    simp only [flattenFrom, List.mem_append] at h
    rcases h with h | h
    · exact ⟨l, List.mem_cons_self _ _, (flattenLine_mem n l 0 T h).2⟩
    · rcases ih (n + 1) T h with ⟨l', hl', ht⟩
      exact ⟨l', List.mem_cons_of_mem _ hl', ht⟩

theorem flattenFrom_length : ∀ (tls : List (List (List Char))) (n : Nat),
    (flattenFrom n tls).length = (tls.map List.length).sum := by
  intro tls
  induction tls with
  | nil => intro n; simp [flattenFrom]
  | cons l rest ih =>
    intro n
    simp [flattenFrom, flattenLine_length n l 0, ih (n + 1)]

/-! ## Lemmas about Phase B (comment removal) -/

theorem removeComments_short (l : List (List Char)) (h : l.length ≤ 1) :
    removeComments l = l := by
  match l with
  | [] => rfl
  | [t] => rfl
  | t :: u :: rest => simp at h

theorem removeComments_no_pair : ∀ l : List (List Char), (∀ i, ¬ pairAt l i) →
    removeComments l = l := by
  intro l
  induction l with
  | nil => intro _; rfl
  | cons t rest ih =>
    intro h
    cases rest with
    | nil => rfl
    | cons u rest' =>
      have hcond : ¬(t = ['/'] ∧ u = ['/']) := by
        intro hc
        exact h 0 (by simp [pairAt, hc.1, hc.2])
      simp only [removeComments, if_neg hcond]
      rw [ih fun i => h (i + 1)]

theorem removeComments_first_pair : ∀ (l : List (List Char)) (i : Nat),
    pairAt l i → (∀ j, j < i → ¬ pairAt l j) → removeComments l = l.take i := by
  intro l
  induction l with
  | nil =>
    intro i hp _
    exfalso
    cases i with
    | zero => exact Option.noConfusion hp.1
    | succ j => exact Option.noConfusion hp.1
  | cons t rest ih =>
    intro i hp hmin
    cases rest with
    | nil =>
      exfalso
      cases i with
      | zero => exact Option.noConfusion hp.2
      | succ j => exact Option.noConfusion hp.1
    | cons u rest' =>
      cases i with
      | zero =>
        rcases hp with ⟨h1, h2⟩
        simp only [List.get?_cons_zero, List.get?_cons_succ, Option.some.injEq] at h1 h2
        simp [removeComments, h1, h2]
      | succ j =>
        have hcond : ¬(t = ['/'] ∧ u = ['/']) := by
          intro hc
          exact hmin 0 (Nat.succ_pos j) (by simp [pairAt, hc.1, hc.2])
        simp only [removeComments, if_neg hcond, List.take_succ_cons]
        rw [ih j hp fun k hk => hmin (k + 1) (by omega)]

theorem removeComments_head (u : List Char) (rest : List (List Char)) :
    removeComments (u :: rest) = [] ∨
    ∃ r, removeComments (u :: rest) = u :: r := by
  cases rest with
  | nil => exact Or.inr ⟨[], rfl⟩
  | cons v r' =>
    by_cases h : u = ['/'] ∧ v = ['/']
    · exact Or.inl (by simp [removeComments, h])
    · exact Or.inr ⟨removeComments (v :: r'), by simp [removeComments, h]⟩

theorem removeComments_no_pair_out : ∀ (l : List (List Char)) (i : Nat),
    ¬ pairAt (removeComments l) i := by
  intro l
  induction l with
  | nil =>
    intro i hp
    cases i with
    | zero => exact Option.noConfusion hp.1
    | succ j => exact Option.noConfusion hp.1
  | cons t rest ih =>
    intro i hp
    cases rest with
    | nil =>
      cases i with
      | zero => exact Option.noConfusion hp.2
      | succ j => exact Option.noConfusion hp.1
    | cons u rest' =>
      by_cases hc : t = ['/'] ∧ u = ['/']
      · rw [show removeComments (t :: u :: rest') = [] from by simp [removeComments, hc]]
          at hp
        cases i with
        | zero => exact Option.noConfusion hp.1
        | succ j => exact Option.noConfusion hp.1
      · rw [show removeComments (t :: u :: rest') = t :: removeComments (u :: rest') from
          by simp [removeComments, hc]] at hp
        cases i with
        | zero =>
          rcases removeComments_head u rest' with hR | ⟨r, hR⟩
          · rw [hR] at hp
            exact Option.noConfusion hp.2
          · rw [hR] at hp
            rcases hp with ⟨h1, h2⟩
            simp only [List.get?_cons_zero, List.get?_cons_succ, Option.some.injEq]
              at h1 h2
            exact hc ⟨h1, h2⟩
        | succ j => exact ih j hp

theorem removeComments_subset : ∀ (l : List (List Char)) (t : List Char),
    t ∈ removeComments l → t ∈ l := by
  intro l
  induction l with
  | nil => intro t h; exact h
  | cons x rest ih =>
    intro t h
    cases rest with
    | nil => exact h
    | cons u rest' =>
      by_cases hc : x = ['/'] ∧ u = ['/']
      · simp [removeComments, hc] at h
      · simp only [removeComments, if_neg hc, List.mem_cons] at h
        rcases h with h | h
        · exact h ▸ List.mem_cons_self _ _
        · exact List.mem_cons_of_mem _ (ih t h)

theorem removeComments_length : ∀ l : List (List Char),
    (removeComments l).length ≤ l.length := by
  intro l
  induction l with
  | nil => simp [removeComments]
  | cons x rest ih =>
    cases rest with
    | nil => simp [removeComments]
    | cons u rest' =>
      by_cases hc : x = ['/'] ∧ u = ['/']
      · simp [removeComments, hc]
      · simp only [removeComments, if_neg hc, List.length_cons]
        exact Nat.succ_le_succ ih

/-! ## Lemmas about Phase A (character split) -/

theorem tokenizeLine_eq (line : List Char) :
    tokenizeLine line =
      (if (line.foldl tokenizeChar ([], [], false)).2.1 = []
       then (line.foldl tokenizeChar ([], [], false)).1
       else (line.foldl tokenizeChar ([], [], false)).1 ++
            [(line.foldl tokenizeChar ([], [], false)).2.1]) := rfl

theorem ws_ne_quote (c : Char) (h : is_whitespace c = true) : c ≠ '"' := by
  intro e
  subst e
  exact absurd h (by decide)

theorem sep_ne_quote (c : Char) (hc : c ∈ special_chars) : c ≠ '"' := by
  fin_cases hc <;> decide

theorem sep_not_ws (c : Char) (hc : c ∈ special_chars) : is_whitespace c = false := by
  fin_cases hc <;> decide

/-- A whitespace character outside a string flushes the accumulator
(pushing it only if non-empty) and clears it. -/
theorem tokenizeChar_ws (tokens : List (List Char)) (token : List Char) (c : Char)
    (hc : is_whitespace c = true) :
    tokenizeChar (tokens, token, false) c =
      ((if token = [] then tokens else tokens ++ [token]), [], false) := by
  have hq : ¬(c = '"') := ws_ne_quote c hc
  simp [tokenizeChar, hq, hc]

/-- A separator character outside a string flushes the accumulator and
emits the separator as its own token. -/
theorem tokenizeChar_sep (tokens : List (List Char)) (token : List Char) (c : Char)
    (hc : c ∈ special_chars) :
    tokenizeChar (tokens, token, false) c =
      ((if token = [] then tokens else tokens ++ [token]) ++ [[c]], [], false) := by
  have hq : ¬(c = '"') := sep_ne_quote c hc
  have hw : is_whitespace c = false := sep_not_ws c hc
  simp [tokenizeChar, hq, hw, hc]

theorem foldl_ws (ws : List Char) (tokens : List (List Char))
    (h : ∀ c ∈ ws, is_whitespace c = true) :
    ws.foldl tokenizeChar (tokens, [], false) = (tokens, [], false) := by
  induction ws with
  | nil => rfl
  | cons c cs ih =>
    have hc : is_whitespace c = true := h c (List.mem_cons_self _ _)
    have hq : ¬(c = '"') := ws_ne_quote c hc
    have hstep : tokenizeChar (tokens, [], false) c = (tokens, [], false) := by
      simp [tokenizeChar, hq, hc]
    rw [List.foldl_cons, hstep]
    exact ih fun d hd => h d (List.mem_cons_of_mem _ hd)

theorem foldl_string : ∀ (cs : List Char) (tokens : List (List Char)) (token : List Char),
    '"' ∉ cs →
    cs.foldl tokenizeChar (tokens, token, true) = (tokens, token ++ cs, true) := by
  intro cs
  induction cs with
  | nil => intro tokens token _; simp
  | cons c cs ih =>
    intro tokens token h
    have hq : ¬(c = '"') := by
      intro e
      exact h (by rw [e]; exact List.mem_cons_self _ _)
    have hstep : tokenizeChar (tokens, token, true) c = (tokens, token ++ [c], true) := by
      simp [tokenizeChar, hq]
    rw [List.foldl_cons, hstep,
        ih tokens (token ++ [c]) fun hm => h (List.mem_cons_of_mem _ hm)]
    simp

theorem tokenizeChar_token_inv (P : List Char → Prop)
    (hsnoc : ∀ (t : List Char) (c : Char), c ≠ '"' → (t ≠ [] → P t) → P (t ++ [c]))
    (st : List (List Char) × List Char × Bool) (c : Char)
    (h1 : ∀ t ∈ st.1, P t) (h2 : st.2.1 ≠ [] → P st.2.1) :
    (∀ t ∈ (tokenizeChar st c).1, P t) ∧
    ((tokenizeChar st c).2.1 ≠ [] → P (tokenizeChar st c).2.1) := by
  obtain ⟨tokens, token, b⟩ := st
  simp only [tokenizeChar]
  split
  · exact ⟨h1, h2⟩
  next hq =>
    split
    · split
      · -- whitespace: flush the accumulator
        refine ⟨?_, by simp⟩
        intro t ht
        split at ht
        · exact h1 t ht
        next he =>
          rcases List.mem_append.mp ht with ht | ht
          · exact h1 t ht
          · rw [List.mem_singleton.mp ht]
            exact h2 he
      · split
        next hs =>
          -- separator: flush the accumulator, emit the separator
          refine ⟨?_, by simp⟩
          intro t ht
          rcases List.mem_append.mp ht with ht | ht
          · split at ht
            · exact h1 t ht
            next he =>
              rcases List.mem_append.mp ht with ht2 | ht2
              · exact h1 t ht2
              · rw [List.mem_singleton.mp ht2]
                exact h2 he
          · rw [List.mem_singleton.mp ht]
            exact hsnoc [] c hq (by simp)
        · -- ordinary character: extend the accumulator
          exact ⟨h1, fun _ => hsnoc token c hq h2⟩
    · -- inside a string literal: extend the accumulator
      exact ⟨h1, fun _ => hsnoc token c hq h2⟩

theorem foldl_token_inv (P : List Char → Prop)
    (hsnoc : ∀ (t : List Char) (c : Char), c ≠ '"' → (t ≠ [] → P t) → P (t ++ [c])) :
    ∀ (cs : List Char) (st : List (List Char) × List Char × Bool),
    (∀ t ∈ st.1, P t) → (st.2.1 ≠ [] → P st.2.1) →
    (∀ t ∈ (cs.foldl tokenizeChar st).1, P t) ∧
    ((cs.foldl tokenizeChar st).2.1 ≠ [] → P (cs.foldl tokenizeChar st).2.1) := by
  intro cs
  induction cs with
  | nil => intro st h1 h2; exact ⟨h1, h2⟩
  | cons c cs ih =>
    intro st h1 h2
    rw [List.foldl_cons]
    have hstep := tokenizeChar_token_inv P hsnoc st c h1 h2
    exact ih (tokenizeChar st c) hstep.1 hstep.2

theorem tokenizeLine_inv (P : List Char → Prop)
    (hsnoc : ∀ (t : List Char) (c : Char), c ≠ '"' → (t ≠ [] → P t) → P (t ++ [c]))
    (line : List Char) : ∀ t ∈ tokenizeLine line, P t := by
  have h := foldl_token_inv P hsnoc line ([], [], false) (by simp) (by simp)
  rw [tokenizeLine_eq]
  by_cases he : (line.foldl tokenizeChar ([], [], false)).2.1 = []
  · rw [if_pos he]
    exact h.1
  · rw [if_neg he]
    intro t ht
    rcases List.mem_append.mp ht with ht | ht
    · exact h.1 t ht
    · rw [List.mem_singleton.mp ht]
      exact h.2 he

theorem tokenizeChar_measure (st : List (List Char) × List Char × Bool) (c : Char) :
    (tokenizeChar st c).1.length + pending (tokenizeChar st c).2.1 ≤
      st.1.length + pending st.2.1 + 1 := by
  obtain ⟨tokens, token, b⟩ := st
  simp only [tokenizeChar]
  split
  · exact Nat.le_succ _
  next hq =>
    split
    · split
      next hw =>
        by_cases he : token = [] <;>
          simp [he, pending, List.length_append]
      next hw =>
        split
        next hs =>
          by_cases he : token = [] <;>
            simp [he, pending, List.length_append]
        next hs =>
          simp only [pending, List.append_eq_nil]
          split <;> split <;> omega
    · simp only [pending, List.append_eq_nil]
      split <;> split <;> omega

theorem foldl_measure : ∀ (cs : List Char) (st : List (List Char) × List Char × Bool),
    (cs.foldl tokenizeChar st).1.length + pending (cs.foldl tokenizeChar st).2.1 ≤
      st.1.length + pending st.2.1 + cs.length := by
  intro cs
  induction cs with
  | nil => intro st; simp
  | cons c cs ih =>
    intro st
    rw [List.foldl_cons]
    have h1 := ih (tokenizeChar st c)
    have h2 := tokenizeChar_measure st c
    simp only [List.length_cons]
    omega

theorem tokenizeLine_length (line : List Char) :
    (tokenizeLine line).length ≤ line.length := by
  have h := foldl_measure line ([], [], false)
  rw [tokenizeLine_eq]
  by_cases he : (line.foldl tokenizeChar ([], [], false)).2.1 = []
  · rw [if_pos he]
    simp only [pending, he, if_pos] at h
    simpa using h
  · rw [if_neg he]
    simp only [pending, if_neg he] at h
    simp only [List.length_append, List.length_singleton]
    simpa using h

/-! ## Helper lemmas connecting `tokenize` to the per-line phases -/

theorem flattenFrom_filter_some (tls : List (List (List Char))) (n k : Nat)
    (l : List (List Char)) (h : tls.get? k = some l) :
    (flattenFrom n tls).filter (fun T => T.line == n + k) = flattenLine (n + k) 0 l := by
  rw [flattenFrom_filter tls n k, h]
  rfl

theorem flattenFrom_filter_none (tls : List (List (List Char))) (n k : Nat)
    (h : tls.get? k = none) :
    (flattenFrom n tls).filter (fun T => T.line == n + k) = [] := by
  rw [flattenFrom_filter tls n k, h]
  rfl

theorem tokenize_filter_get? (lines : List (List Char)) (L i : Nat) (T : Token)
    (hT : ((tokenize lines).filter (fun t => t.line == L)).get? i = some T) :
    ∃ line, lines.get? L = some line ∧
      (removeComments (tokenizeLine line)).get? i = some T.token ∧
      T.line = L ∧ T.token_number = i := by
  unfold tokenize at hT
  cases hg : lines.get? L with
  | none =>
    have hn : (lines.map fun l => removeComments (tokenizeLine l)).get? L = none := by
      rw [List.get?_map, hg]
      rfl
    have h0 := flattenFrom_filter_none (lines.map fun l => removeComments (tokenizeLine l))
      0 L hn
    rw [Nat.zero_add] at h0
    rw [h0] at hT
    exact Option.noConfusion hT
  | some line =>
    have hs : (lines.map fun l => removeComments (tokenizeLine l)).get? L =
        some (removeComments (tokenizeLine line)) := by
      rw [List.get?_map, hg]
      rfl
    have h0 := flattenFrom_filter_some (lines.map fun l => removeComments (tokenizeLine l))
      0 L (removeComments (tokenizeLine line)) hs
    rw [Nat.zero_add] at h0
    rw [h0, flattenLine_get?] at hT
    cases hgi : (removeComments (tokenizeLine line)).get? i with
    | none =>
      rw [hgi] at hT
      exact Option.noConfusion hT
    | some t =>
      rw [hgi] at hT
      simp only [Option.map_some'] at hT
      injection hT with h
      refine ⟨line, rfl, ?_, ?_, ?_⟩
      · rw [hgi, ← h]
      · rw [← h]
      · rw [← h]
        simp

theorem tokenizeChar_tokens_mono (st : List (List Char) × List Char × Bool)
    (c : Char) (t : List Char) (h : t ∈ st.1) : t ∈ (tokenizeChar st c).1 := by
  obtain ⟨tokens, token, b⟩ := st
  simp only [tokenizeChar]
  split
  · exact h
  · split
    · split
      · split
        · exact h
        · exact List.mem_append_left _ h
      · split
        · apply List.mem_append_left
          split
          · exact h
          · exact List.mem_append_left _ h
        · exact h
    · exact h

theorem foldl_tokens_mono : ∀ (cs : List Char) (st : List (List Char) × List Char × Bool)
    (t : List Char), t ∈ st.1 → t ∈ (cs.foldl tokenizeChar st).1 := by
  intro cs
  induction cs with
  | nil => intro st t h; exact h
  | cons c cs ih =>
    intro st t h
    rw [List.foldl_cons]
    exact ih _ t (tokenizeChar_tokens_mono st c t h)

theorem mem_tokenizeLine_of_tokens (line : List Char) (t : List Char)
    (h : t ∈ (line.foldl tokenizeChar ([], [], false)).1) : t ∈ tokenizeLine line := by
  rw [tokenizeLine_eq]
  split
  · exact h
  · exact List.mem_append_left _ h

theorem acc_mem_tokenizeLine (line : List Char)
    (h : (line.foldl tokenizeChar ([], [], false)).2.1 ≠ []) :
    (line.foldl tokenizeChar ([], [], false)).2.1 ∈ tokenizeLine line := by
  rw [tokenizeLine_eq, if_neg h]
  exact List.mem_append_right _ (List.mem_singleton.mpr rfl)

theorem hasSegment_ne_nil (content t : List Char) (hne : content ≠ [])
    (h : hasSegment content t) : t ≠ [] := by
  rcases h with ⟨u, v, rfl⟩
  intro he
  simp only [List.append_eq_nil] at he
  exact hne he.2.1

theorem tokenizeChar_segment (content : List Char) (hne : content ≠ [])
    (st : List (List Char) × List Char × Bool) (c : Char)
    (h : (∃ t ∈ st.1, hasSegment content t) ∨ hasSegment content st.2.1) :
    (∃ t ∈ (tokenizeChar st c).1, hasSegment content t) ∨
      hasSegment content (tokenizeChar st c).2.1 := by
  obtain ⟨tokens, token, b⟩ := st
  rcases h with ⟨t, ht, hseg⟩ | hseg
  · exact Or.inl ⟨t, tokenizeChar_tokens_mono (tokens, token, b) c t ht, hseg⟩
  · have htok : token ≠ [] := hasSegment_ne_nil content token hne hseg
    simp only [tokenizeChar]
    split
    · exact Or.inr hseg
    · split
      · split
        · -- whitespace: the non-empty accumulator is flushed into the tokens
          left
          refine ⟨token, ?_, hseg⟩
          simp [htok]
        · split
          · -- separator: the non-empty accumulator is flushed too
            left
            refine ⟨token, ?_, hseg⟩
            simp [htok]
          · -- ordinary character: the segment stays inside the accumulator
            right
            rcases hseg with ⟨u, v, rfl⟩
            exact ⟨u, v ++ [c], by simp⟩
      · right
        rcases hseg with ⟨u, v, rfl⟩
        exact ⟨u, v ++ [c], by simp⟩

theorem foldl_segment (content : List Char) (hne : content ≠ []) :
    ∀ (cs : List Char) (st : List (List Char) × List Char × Bool),
    ((∃ t ∈ st.1, hasSegment content t) ∨ hasSegment content st.2.1) →
    ((∃ t ∈ (cs.foldl tokenizeChar st).1, hasSegment content t) ∨
      hasSegment content (cs.foldl tokenizeChar st).2.1) := by
  intro cs
  induction cs with
  | nil => intro st h; exact h
  | cons c cs ih =>
    intro st h
    rw [List.foldl_cons]
    exact ih _ (tokenizeChar_segment content hne st c h)

theorem foldl_line_decomp (pre content post : List Char) (hq : '"' ∉ content)
    (ts : List (List Char)) (acc : List Char)
    (hS : pre.foldl tokenizeChar ([], [], false) = (ts, acc, false)) :
    (pre ++ ['"'] ++ content ++ ['"'] ++ post).foldl tokenizeChar ([], [], false) =
      post.foldl tokenizeChar (ts, acc ++ content, false) := by
  have e : pre ++ ['"'] ++ content ++ ['"'] ++ post =
      pre ++ ('"' :: (content ++ ('"' :: post))) := by simp
  rw [e, List.foldl_append, hS, List.foldl_cons]
  have h1 : tokenizeChar (ts, acc, false) '"' = (ts, acc, true) := by
    simp [tokenizeChar]
  rw [h1, List.foldl_append, foldl_string content ts acc hq, List.foldl_cons]
  have h2 : tokenizeChar (ts, acc ++ content, true) '"' = (ts, acc ++ content, false) := by
    simp [tokenizeChar]
  rw [h2]

theorem tokenize_token_quote_free (lines : List (List Char)) (T : Token)
    (hT : T ∈ tokenize lines) : '"' ∉ T.token := by
  unfold tokenize at hT
  obtain ⟨l, hl, htok⟩ := flattenFrom_mem _ 0 T hT
  obtain ⟨line, _, rfl⟩ := List.mem_map.mp hl
  have hmem := removeComments_subset (tokenizeLine line) T.token htok
  refine tokenizeLine_inv (fun t => '"' ∉ t) ?_ line T.token hmem
  intro t c hc ht hm
  rcases List.mem_append.mp hm with hm | hm
  · have hne : t ≠ [] := by
      rintro rfl
      exact absurd hm (List.not_mem_nil _)
    exact ht hne hm
  · exact hc (List.mem_singleton.mp hm).symm

theorem tokenizeLine_literal_segment (pre content post : List Char)
    (hstr : (pre.foldl tokenizeChar ([], [], false)).2.2 = false)
    (hq : '"' ∉ content) (hne : content ≠ []) :
    ∃ t ∈ tokenizeLine (pre ++ ['"'] ++ content ++ ['"'] ++ post),
      hasSegment content t := by
  rcases hSeq : pre.foldl tokenizeChar ([], [], false) with ⟨ts, acc, b⟩
  have hb : b = false := by
    rw [hSeq] at hstr
    exact hstr
  subst hb
  have hdec := foldl_line_decomp pre content post hq ts acc hSeq
  have hinv := foldl_segment content hne post (ts, acc ++ content, false)
    (Or.inr ⟨acc, [], by simp⟩)
  rcases hinv with ⟨t, ht, hseg⟩ | hseg
  · refine ⟨t, mem_tokenizeLine_of_tokens _ t ?_, hseg⟩
    rw [hdec]
    exact ht
  · refine ⟨_, acc_mem_tokenizeLine _ ?_, ?_⟩
    · rw [hdec]
      exact hasSegment_ne_nil content _ hne hseg
    · rw [hdec]
      exact hseg

theorem tokenizeLine_literal_delimited (pre content post : List Char)
    (hacc : (pre.foldl tokenizeChar ([], [], false)).2.1 = [])
    (hstr : (pre.foldl tokenizeChar ([], [], false)).2.2 = false)
    (hq : '"' ∉ content) (hne : content ≠ [])
    (hbnd : post = [] ∨ ∃ c rest, post = c :: rest ∧
      (is_whitespace c = true ∨ c ∈ special_chars)) :
    content ∈ tokenizeLine (pre ++ ['"'] ++ content ++ ['"'] ++ post) := by
  rcases hSeq : pre.foldl tokenizeChar ([], [], false) with ⟨ts, acc, b⟩
  have hb : b = false := by
    rw [hSeq] at hstr
    exact hstr
  have ha : acc = [] := by
    rw [hSeq] at hacc
    exact hacc
  subst hb
  subst ha
  have hdec := foldl_line_decomp pre content post hq ts [] hSeq
  simp only [List.nil_append] at hdec
  rcases hbnd with rfl | ⟨c, rest, rfl, hc⟩
  · rw [tokenizeLine_eq, hdec]
    show content ∈ (if content = [] then ts else ts ++ [content])
    rw [if_neg hne]
    exact List.mem_append_right _ (List.mem_singleton.mpr rfl)
  · apply mem_tokenizeLine_of_tokens
    rw [hdec, List.foldl_cons]
    apply foldl_tokens_mono
    rcases hc with hcw | hcs
    · rw [tokenizeChar_ws ts content c hcw]
      show content ∈ (if content = [] then ts else ts ++ [content])
      rw [if_neg hne]
      exact List.mem_append_right _ (List.mem_singleton.mpr rfl)
    · rw [tokenizeChar_sep ts content c hcs]
      show content ∈ (if content = [] then ts else ts ++ [content]) ++ [[c]]
      rw [if_neg hne]
      exact List.mem_append_left _
        (List.mem_append_right _ (List.mem_singleton.mpr rfl))

/-! ## The claims -/

/-- **C1**: for every input, the tokens in the output are grouped by
ascending line index, and within each line group the position values
are exactly 0, 1, 2, … in emission order: the `i`-th same-line token
(in emission order) carries `token_number = i`. -/
theorem tokenize_ordering (lines : List (List Char)) :
    (tokenize lines).Pairwise (fun a b => a.line ≤ b.line) ∧
    ∀ (L i : Nat) (T : Token),
      ((tokenize lines).filter (fun t => t.line == L)).get? i = some T →
      T.token_number = i := by
  constructor
  · exact flattenFrom_pairwise _ 0
  · intro L i T hT
    obtain ⟨line, _, _, _, h4⟩ := tokenize_filter_get? lines L i T hT
    exact h4

/-- Witness for `tokenize_ordering` on the input line `"a b"`. -/
theorem tokenize_ordering_witness :
    ((tokenize [['a', ' ', 'b']]).filter (fun t => t.line == 0)).get? 1 =
      some ⟨['b'], 0, 1⟩ ∧ (⟨['b'], 0, 1⟩ : Token).token_number = 1 :=
  ⟨by decide, (tokenize_ordering [['a', ' ', 'b']]).2 0 1 ⟨['b'], 0, 1⟩ (by decide)⟩

/-- **C2** fails as stated: on the line `a"b c"` the literal's content
`b c` does not become one token spanning from just after the opening
quote to just before the closing quote — the quote abuts the word `a`,
so the single output token is the merged `ab c`, and no output token
equals the literal content `b c`. -/
theorem tokenize_literal_counterexample :
    tokenize [['a', '"', 'b', ' ', 'c', '"']] = [⟨['a', 'b', ' ', 'c'], 0, 0⟩] ∧
    ¬ ∃ T ∈ tokenize [['a', '"', 'b', ' ', 'c', '"']], T.token = ['b', ' ', 'c'] := by
  decide

/-- The whole-line special case: a line that is exactly one quoted
literal yields exactly the literal's content as its one token, or no
token at all when the content is empty. -/
theorem tokenize_literal_line (content : List Char) (h : '"' ∉ content) :
    tokenize [['"'] ++ content ++ ['"']] =
      if content = [] then [] else [⟨content, 0, 0⟩] := by
  have hline : tokenizeLine (['"'] ++ content ++ ['"']) =
      if content = [] then [] else [content] := by
    rw [tokenizeLine_eq]
    have h1 : (['"'] ++ content ++ ['"']).foldl tokenizeChar ([], [], false) =
        ([], content, false) := by
      have e1 : ['"'] ++ content ++ ['"'] = '"' :: (content ++ ['"']) := by simp
      rw [e1, List.foldl_cons]
      have hstep : tokenizeChar ([], [], false) '"' = ([], [], true) := by
        simp [tokenizeChar]
      rw [hstep, List.foldl_append, foldl_string content [] [] h]
      simp [tokenizeChar]
    rw [h1]
    by_cases he : content = [] <;> simp [he]
  unfold tokenize
  simp only [List.map]
  rw [hline]
  by_cases he : content = []
  · simp [he, removeComments, flattenFrom, flattenLine]
  · rw [if_neg he, if_neg he]
    simp [removeComments, flattenFrom, flattenLine]

/-- **C2** (amended): for every line, the quote characters are discarded
— included in no output token and emitted as no token.  A non-empty
string literal's content is never split: whenever the scanner reaches
the literal's opening quote outside a string, the entire content —
including any whitespace or separator characters it contains — lands as
one contiguous segment inside a single Phase-A token.  When the literal
is moreover delimited (empty accumulator at the opening quote, and the
closing quote followed by whitespace, a separator, or the end of the
line), that token is exactly the literal's content; a line that is
exactly one quoted literal yields exactly its content as a token, an
empty literal contributing no token.  (When a quote directly abuts word
characters, the content instead merges with them into one larger
token.) -/
theorem tokenize_literal_behavior :
    (∀ (lines : List (List Char)) (T : Token), T ∈ tokenize lines → '"' ∉ T.token) ∧
    (∀ pre content post : List Char,
      (pre.foldl tokenizeChar ([], [], false)).2.2 = false →
      '"' ∉ content → content ≠ [] →
      ∃ t ∈ tokenizeLine (pre ++ ['"'] ++ content ++ ['"'] ++ post),
        hasSegment content t) ∧
    (∀ pre content post : List Char,
      (pre.foldl tokenizeChar ([], [], false)).2.1 = [] →
      (pre.foldl tokenizeChar ([], [], false)).2.2 = false →
      '"' ∉ content → content ≠ [] →
      (post = [] ∨ ∃ c rest, post = c :: rest ∧
        (is_whitespace c = true ∨ c ∈ special_chars)) →
      content ∈ tokenizeLine (pre ++ ['"'] ++ content ++ ['"'] ++ post)) ∧
    (∀ content : List Char, '"' ∉ content →
      tokenize [['"'] ++ content ++ ['"']] =
        if content = [] then [] else [⟨content, 0, 0⟩]) :=
  ⟨tokenize_token_quote_free, tokenizeLine_literal_segment,
   tokenizeLine_literal_delimited, tokenize_literal_line⟩

/-- Witness for `tokenize_literal_behavior`: in `x "b c" y` the
delimited literal yields the token `b c` exactly, and the line
`"b + c"` alone yields the single token `b + c`. -/
theorem tokenize_literal_behavior_witness :
    ['b', ' ', 'c'] ∈
      tokenizeLine (['x', ' '] ++ ['"'] ++ ['b', ' ', 'c'] ++ ['"'] ++ [' ', 'y']) ∧
    tokenize [['"'] ++ ['b', ' ', '+', ' ', 'c'] ++ ['"']] =
      [⟨['b', ' ', '+', ' ', 'c'], 0, 0⟩] := by
  constructor
  · exact tokenize_literal_behavior.2.2.1 ['x', ' '] ['b', ' ', 'c'] [' ', 'y']
      (by decide) (by decide) (by decide) (by decide)
      (Or.inr ⟨' ', ['y'], rfl, Or.inl (by decide)⟩)
  · have h := tokenize_literal_behavior.2.2.2 ['b', ' ', '+', ' ', 'c'] (by decide)
    rw [if_neg (by decide : ¬(['b', ' ', '+', ' ', 'c'] : List Char) = [])] at h
    exact h

/-- **C3**: for every line's Phase-A token sequence, the comment pass
truncates at the first pair of consecutive `"/"` tokens, keeping only
the tokens strictly before the pair; a sequence with no such pair —
in particular any sequence of length 0 or 1 — is left unchanged. -/
theorem removeComments_spec (line : List Char) :
    (∀ i, pairAt (tokenizeLine line) i →
      (∀ j, j < i → ¬ pairAt (tokenizeLine line) j) →
      removeComments (tokenizeLine line) = (tokenizeLine line).take i) ∧
    ((∀ i, ¬ pairAt (tokenizeLine line) i) →
      removeComments (tokenizeLine line) = tokenizeLine line) ∧
    ((tokenizeLine line).length ≤ 1 →
      removeComments (tokenizeLine line) = tokenizeLine line) :=
  ⟨removeComments_first_pair (tokenizeLine line),
   removeComments_no_pair (tokenizeLine line),
   removeComments_short (tokenizeLine line)⟩

/-- Witness for `removeComments_spec`: the line `a b // c d` has the
Phase-A sequence `[a, b, /, /, c, d]` (the spec's P4 shape) and is
truncated to `[a, b]`. -/
theorem removeComments_spec_witness :
    removeComments (tokenizeLine ['a', ' ', 'b', ' ', '/', '/', ' ', 'c', ' ', 'd']) =
      (tokenizeLine ['a', ' ', 'b', ' ', '/', '/', ' ', 'c', ' ', 'd']).take 2 :=
  (removeComments_spec ['a', ' ', 'b', ' ', '/', '/', ' ', 'c', ' ', 'd']).1 2
    (by decide) (by intro j hj; interval_cases j <;> decide)

/-- **C4**: `tokenize` is total — it is a Lean function defined by
structural recursion, so it terminates on every input, including
malformed ones — and it never fails: its output is a token list whose
length is bounded by the total number of input characters. -/
theorem tokenize_total (lines : List (List Char)) :
    (tokenize lines).length ≤ (lines.map List.length).sum := by
  unfold tokenize
  rw [flattenFrom_length, List.map_map]
  apply List.sum_le_sum
  intro l _
  exact le_trans (removeComments_length (tokenizeLine l)) (tokenizeLine_length l)

/-- **C5**: in the output, no two tokens of the same line at consecutive
positions are both the single character `/` — no comment-introducing
`/ /` pair survives to the output. -/
theorem tokenize_no_slash_pair (lines : List (List Char)) (L i : Nat) (T U : Token)
    (hT : ((tokenize lines).filter (fun t => t.line == L)).get? i = some T)
    (hU : ((tokenize lines).filter (fun t => t.line == L)).get? (i + 1) = some U) :
    ¬(T.token = ['/'] ∧ U.token = ['/']) := by
  intro hcontra
  obtain ⟨line, hg1, hget1, _, _⟩ := tokenize_filter_get? lines L i T hT
  obtain ⟨line', hg2, hget2, _, _⟩ := tokenize_filter_get? lines L (i + 1) U hU
  rw [hg1] at hg2
  injection hg2 with e
  subst e
  apply removeComments_no_pair_out (tokenizeLine line) i
  exact ⟨by rw [hget1, hcontra.1], by rw [hget2, hcontra.2]⟩

/-- Witness for `tokenize_no_slash_pair` on the line `a+b`. -/
theorem tokenize_no_slash_pair_witness :
    ¬((⟨['a'], 0, 0⟩ : Token).token = ['/'] ∧ (⟨['+'], 0, 1⟩ : Token).token = ['/']) :=
  tokenize_no_slash_pair [['a', '+', 'b']] 0 0 ⟨['a'], 0, 0⟩ ⟨['+'], 0, 1⟩
    (by decide) (by decide)

/-- **C6**: inserting extra whitespace between tokens, outside of string
literals, does not change the token texts produced for the line.  A
between-token insertion point is one where the scanner is outside a
string literal and either its accumulator is empty, or the line ends
there, or the next character is whitespace or a separator (so the
pending token is about to be flushed anyway — e.g. `a+b` → `a +b`). -/
theorem tokenizeLine_ws_insert (pre ws post : List Char)
    (hws : ∀ c ∈ ws, is_whitespace c = true)
    (hstr : (pre.foldl tokenizeChar ([], [], false)).2.2 = false)
    (hbnd : (pre.foldl tokenizeChar ([], [], false)).2.1 = [] ∨ post = [] ∨
      ∃ c rest, post = c :: rest ∧ (is_whitespace c = true ∨ c ∈ special_chars)) :
    tokenizeLine (pre ++ ws ++ post) = tokenizeLine (pre ++ post) := by
  rcases ws with _ | ⟨w, ws'⟩
  · simp
  have hwv : is_whitespace w = true := hws w (List.mem_cons_self _ _)
  have hws' : ∀ c ∈ ws', is_whitespace c = true :=
    fun c hcm => hws c (List.mem_cons_of_mem _ hcm)
  rcases hSeq : pre.foldl tokenizeChar ([], [], false) with ⟨ts, acc, b⟩
  have hb : b = false := by
    rw [hSeq] at hstr
    exact hstr
  subst hb
  rw [hSeq] at hbnd
  have hA : (w :: ws').foldl tokenizeChar (ts, acc, false) =
      ((if acc = [] then ts else ts ++ [acc]), [], false) := by
    rw [List.foldl_cons, tokenizeChar_ws ts acc w hwv]
    exact foldl_ws ws' _ hws'
  rw [tokenizeLine_eq, tokenizeLine_eq, List.append_assoc, List.foldl_append,
      List.foldl_append, List.foldl_append, hSeq, hA]
  rcases hbnd with hacc | hpost | ⟨c, rest, hpostc, hc⟩
  · have ha : acc = [] := hacc
    subst ha
    simp
  · subst hpost
    simp only [List.foldl_nil]
    by_cases ha : acc = [] <;> simp [ha]
  · subst hpostc
    rw [List.foldl_cons, List.foldl_cons]
    have hstep : tokenizeChar ((if acc = [] then ts else ts ++ [acc]), [], false) c =
        tokenizeChar (ts, acc, false) c := by
      rcases hc with hcw | hcs
      · rw [tokenizeChar_ws _ _ c hcw, tokenizeChar_ws _ _ c hcw]
        simp
      · rw [tokenizeChar_sep _ _ c hcs, tokenizeChar_sep _ _ c hcs]
        simp
    rw [hstep]

/-- Witness for `tokenizeLine_ws_insert`: `a+b` → `a +b`, a real
between-token insertion in front of a pending accumulator. -/
theorem tokenizeLine_ws_insert_witness :
    tokenizeLine (['a'] ++ [' '] ++ ['+', 'b']) =
      tokenizeLine (['a'] ++ ['+', 'b']) :=
  tokenizeLine_ws_insert ['a'] [' '] ['+', 'b'] (by decide) (by decide)
    (Or.inr (Or.inr ⟨'+', ['b'], rfl, Or.inr (by decide)⟩))

/-- **C7**: the string-literal delimiter `"` never appears in the text
of any output token. -/
theorem tokenize_no_quote (lines : List (List Char)) (T : Token)
    (hT : T ∈ tokenize lines) : '"' ∉ T.token :=
  tokenize_token_quote_free lines T hT

/-- Witness for `tokenize_no_quote` on the line `a`. -/
theorem tokenize_no_quote_witness : '"' ∉ (⟨['a'], 0, 0⟩ : Token).token :=
  tokenize_no_quote [['a']] ⟨['a'], 0, 0⟩ (by decide)

/-- **C8**: a line containing only whitespace, and a line whose Phase-A
sequence starts with the comment pair `/ /`, contribute zero tokens;
later lines keep their original zero-based index — for input
`["", "a b"]` line 0 yields nothing and line 1 yields `a`, `b` at
line 1, positions 0 and 1. -/
theorem tokenize_blank_lines :
    (∀ line : List Char, (∀ c ∈ line, is_whitespace c = true) →
      removeComments (tokenizeLine line) = []) ∧
    (∀ (line : List Char) (rest : List (List Char)),
      tokenizeLine line = ['/'] :: ['/'] :: rest →
      removeComments (tokenizeLine line) = []) ∧
    tokenize [[], ['a', ' ', 'b']] = [⟨['a'], 1, 0⟩, ⟨['b'], 1, 1⟩] := by
  refine ⟨?_, ?_, by decide⟩
  · intro line h
    have hl : tokenizeLine line = [] := by
      rw [tokenizeLine_eq, foldl_ws line [] h]
      simp
    rw [hl]
    rfl
  · intro line rest h
    rw [h]
    simp [removeComments]

/-- Witness for `tokenize_blank_lines`: a whitespace-only line (space,
tab and form feed U+000C — whitespace for the program though not an
ASCII space) and a comment-only line each produce zero tokens. -/
theorem tokenize_blank_lines_witness :
    removeComments (tokenizeLine [' ', '\t', '\x0C']) = [] ∧
    removeComments (tokenizeLine ['/', '/', 'x']) = [] :=
  ⟨tokenize_blank_lines.1 [' ', '\t', '\x0C'] (by decide),
   tokenize_blank_lines.2.1 ['/', '/', 'x'] [['x']] (by decide)⟩

/-- **C9**: every output token has non-empty text — the accumulator is
flushed only when non-empty and separator tokens are single characters,
so no empty-text token is ever emitted. -/
theorem tokenize_nonempty (lines : List (List Char)) (T : Token)
    (hT : T ∈ tokenize lines) : T.token ≠ [] := by
  unfold tokenize at hT
  obtain ⟨l, hl, htok⟩ := flattenFrom_mem _ 0 T hT
  obtain ⟨line, _, rfl⟩ := List.mem_map.mp hl
  have hmem := removeComments_subset (tokenizeLine line) T.token htok
  refine tokenizeLine_inv (fun t => t ≠ []) ?_ line T.token hmem
  intro t c _ _
  simp

/-- Witness for `tokenize_nonempty` on the line `b` (note the empty
literal in `""b` would contribute nothing: the only token is `b`). -/
theorem tokenize_nonempty_witness : (⟨['b'], 0, 0⟩ : Token).token ≠ [] :=
  tokenize_nonempty [['"', '"', 'b']] ⟨['b'], 0, 0⟩ (by decide)

/-- **C10**: comment stripping cannot tell a separator-derived `/` from
a string-derived one: on the line `a "/" "/" b` the two string literals
each become a `/` token, the pair triggers truncation, and only the
word `a` survives. -/
theorem tokenize_string_slash_pair :
    tokenize [['a', ' ', '"', '/', '"', ' ', '"', '/', '"', ' ', 'b']] =
      [⟨['a'], 0, 0⟩] := by
  decide
